import Mathlib

/-!
Verification of the data-collection layer of the `invest` repository.

This file shallowly embeds the two collectors that the claims are about:

* `src/data_collection/kr_stock_codes.py` — `KRStockCodeCollector`
  (`get_ipo_date_from_pykrx`, `check_if_delisted`, `cleanup_duplicates`,
  `collect_and_update_stock_symbols`), and
* `src/data_collection/korean_stocks.py` — `KoreanStockCollector`
  (`save_stock_data_to_db`, `collect_all_stocks_data`).

Modelling conventions
* Calendar dates are encoded as natural numbers counting days from
  1990-01-01, the hard-coded lower bound of every price-history query in
  the source (`fromdate="1990-01-01"`); pykrx OHLCV data does not predate
  that bound, so the encoding loses no reachable date.
* A pykrx price-history fetch for a symbol is an environment value: the
  list of dates on which the symbol has a price row, together with flags
  saying whether the network call raises.  A fetch over a range filters
  the history to the range, exactly the frame the Python code receives.
* SQLAlchemy sessions are modelled as a pair of row lists: the rows the
  database holds (visible to queries) and the pending inserts added with
  `session.add` (invisible until `commit`, since the sessions are built
  with `autoflush=False`).  Attribute assignment on a queried row mutates
  it in place, which the model renders by replacing the row in the
  committed list.
* `try/except` blocks around per-ticker work are modelled with `Except`:
  an environment flag says whether the body of an iteration raises, and
  the loop catches the error and continues, as the Python code does.
-/

namespace Invest

/-- Days since 1990-01-01 (see the modelling conventions above). -/
abbrev KDate := Nat

/-- The `fromdate="1990-01-01"` constant used by both full-history fetches. -/
def date1990 : KDate := 0

/-- Environment of one symbol's pykrx price history: the dates of its
price-history rows plus failure flags for the two fetches the collector
performs (the 30-day window fetch and the since-1990 fetch). -/
structure PykrxEnv where
  history : List KDate
  recentFails : Bool
  fullFails : Bool
deriving DecidableEq, Repr

/-- `stock.get_market_ohlcv_by_date(fromdate=start_date, todate=end_date, ...)`
with `start_date = end_date - timedelta(days=30)` (kr_stock_codes.py lines
471-480): the dates of the rows in the last-30-days window, or an error
when the call raises. -/
def get_market_ohlcv_recent (today : KDate) (e : PykrxEnv) : Except Unit (List KDate) :=
  if e.recentFails then Except.error ()
  else Except.ok (e.history.filter (fun d => decide (today - 30 ≤ d) && decide (d ≤ today)))

/-- `stock.get_market_ohlcv_by_date(fromdate="1990-01-01", todate=<today>, ...)`
(kr_stock_codes.py lines 442-446 and 488-492). -/
def get_market_ohlcv_since1990 (today : KDate) (e : PykrxEnv) : Except Unit (List KDate) :=
  if e.fullFails then Except.error ()
  else Except.ok (e.history.filter (fun d => decide (date1990 ≤ d) && decide (d ≤ today)))

/-- `df.index.max()` of a date frame. -/
def dfMax : List KDate → Option KDate
  | [] => none
  | d :: l =>
    match dfMax l with
    | none => some d
    | some m => some (max d m)

/-- `df.index.min()` of a date frame. -/
def dfMin : List KDate → Option KDate
  | [] => none
  | d :: l =>
    match dfMin l with
    | none => some d
    | some m => some (min d m)

/-- Body of `KRStockCodeCollector.get_ipo_date_from_pykrx` (lines 436-453):
the part inside the `try`; a raising fetch propagates. -/
def get_ipo_date_run (today : KDate) (e : PykrxEnv) : Except Unit (Option KDate) :=
  match get_market_ohlcv_since1990 today e with
  | Except.error err => Except.error err
  | Except.ok df =>
    if df.isEmpty = false then Except.ok (dfMin df)
    else Except.ok none

/-- `KRStockCodeCollector.get_ipo_date_from_pykrx` (lines 426-457): the
`except` clause turns any fetch failure into `None`. -/
def get_ipo_date_from_pykrx (today : KDate) (e : PykrxEnv) : Option KDate :=
  match get_ipo_date_run today e with
  | Except.ok v => v
  | Except.error _ => none

/-- Body of `KRStockCodeCollector.check_if_delisted` (lines 470-500):
recent window first, then the full history since 1990; a raising fetch
propagates. -/
def check_if_delisted_run (today : KDate) (e : PykrxEnv) : Except Unit (Option KDate) :=
  match get_market_ohlcv_recent today e with
  | Except.error err => Except.error err
  | Except.ok dfRecent =>
    if dfRecent.isEmpty = false then Except.ok none
    else
      match get_market_ohlcv_since1990 today e with
      | Except.error err => Except.error err
      | Except.ok dfAll =>
        if dfAll.isEmpty = false then Except.ok (dfMax dfAll)
        else Except.ok none

/-- `KRStockCodeCollector.check_if_delisted` (lines 459-504): the `except`
clause turns any fetch failure into `None` ("still active"). -/
def check_if_delisted (today : KDate) (e : PykrxEnv) : Option KDate :=
  match check_if_delisted_run today e with
  | Except.ok v => v
  | Except.error _ => none

/-- A row of the `kr_stock_codes` table (class `KRStockCode`, lines 29-41).
The autoincrement `id` is omitted: rows are identified by their position in
the table list. -/
structure KRStockCode where
  stock_symbol : String
  stock_market : String
  company_name : String
  ipo_date : Option KDate
  delisting_date : Option KDate
  is_active : Bool
  created_at : KDate
  updated_at : KDate
deriving DecidableEq, Repr

/-- One entry of the list `get_all_stock_codes_from_pykrx` returns
(kr_stock_codes.py lines 364-368). -/
structure Company where
  stock_symbol : String
  stock_market : String
  company_name : String
deriving DecidableEq, Repr

/-- Environment of one `collect_and_update_stock_symbols` run: the pykrx
history of each symbol, today's date, which iteration bodies raise, and
whether the initial `cleanup_duplicates` session raises. -/
structure CollectEnv where
  pykrx : String → PykrxEnv
  today : KDate
  fail : Company → Bool
  cleanupFails : Bool

/-- Replace the first element satisfying `p` by its image under `f`
(attribute assignment on the row object a `query(...).first()` returned). -/
def updateFirstBy {α : Type} (p : α → Bool) (f : α → α) : List α → List α
  | [] => []
  | r :: rest => if p r then f r :: rest else r :: updateFirstBy p f rest

/-- `rows.filter` on one stock symbol
(`session.query(KRStockCode).filter(KRStockCode.stock_symbol == s)`). -/
def symbolGroup (s : String) (rows : List KRStockCode) : List KRStockCode :=
  rows.filter (fun r => r.stock_symbol == s)

/-- Number of table rows carrying a given stock symbol. -/
def countSym (rows : List KRStockCode) (s : String) : Nat :=
  (symbolGroup s rows).length

/-- The table never holds two rows for the same stock symbol. -/
def AtMostOnePerSymbol (rows : List KRStockCode) : Prop :=
  ∀ s, countSym rows s ≤ 1

/-- One deletion pass of `cleanup_duplicates` for symbol `s` (lines
303-312): the records for `s`, ordered by `updated_at` descending, keep
their first element and the rest are deleted.  SQL fixes the survivor only
up to ties in `updated_at`; the model realizes the tie-break as
first-in-table-order among the rows whose `updated_at` equals the group
maximum `m`. -/
def keepGo (s : String) (m : KDate) : List KRStockCode → Bool → List KRStockCode × Nat
  | [], _ => ([], 0)
  | r :: rest, found =>
    if r.stock_symbol == s then
      if !found && r.updated_at == m then
        let q := keepGo s m rest true
        (r :: q.1, q.2)
      else
        let q := keepGo s m rest found
        (q.1, q.2 + 1)
    else
      let q := keepGo s m rest found
      (r :: q.1, q.2)

/-- Deletion pass for one symbol: keep one row with the greatest
`updated_at`, delete the other rows of that symbol, and count deletions. -/
def keepLatestCount (s : String) (rows : List KRStockCode) : List KRStockCode × Nat :=
  match dfMax ((symbolGroup s rows).map (fun r => r.updated_at)) with
  | none => (rows, 0)
  | some m => keepGo s m rows false

/-- One iteration of the deletion loop over `duplicates` (lines 303-312):
run the per-symbol pass and accumulate the removed count. -/
def cleanupStep (acc : List KRStockCode × Nat) (s : String) : List KRStockCode × Nat :=
  let q := keepLatestCount s acc.1
  (q.1, acc.2 + q.2)

/-- `KRStockCodeCollector.cleanup_duplicates` (lines 282-329).  The
`duplicates` query (lines 293-299) compares the column with itself and
calls `.count()` eagerly, so its `HAVING` clause receives the Python bool
`total_rows > 1`: when the table has more than one row every grouped
symbol is returned, otherwise none — singleton symbols lose no rows either
way.  On an exception the session is rolled back (table unchanged) and 0
is returned. -/
def cleanup_duplicates (fails : Bool) (rows : List KRStockCode) : List KRStockCode × Nat :=
  if fails then (rows, 0)
  else
    let duplicates : List String :=
      if 1 < rows.length then (rows.map (fun r => r.stock_symbol)).dedup else []
    duplicates.foldl cleanupStep (rows, 0)

/-- The update applied to an existing record when the market changed
(lines 554-556). -/
def updMarket (c : Company) (x : KRStockCode × Bool) : KRStockCode × Bool :=
  if x.1.stock_market ≠ c.stock_market then
    ({ x.1 with stock_market := c.stock_market }, true)
  else x

/-- The update applied to an existing record when the company name changed
(lines 559-561). -/
def updName (c : Company) (x : KRStockCode × Bool) : KRStockCode × Bool :=
  if x.1.company_name ≠ c.company_name then
    ({ x.1 with company_name := c.company_name }, true)
  else x

/-- The delisting-status update of an existing record (lines 563-573):
when the freshly computed delisting date differs from the stored one it is
stored and `is_active` is set to `False`; otherwise, when it is `None` and
the record is inactive, the record is re-activated. -/
def updDelist (d : Option KDate) (x : KRStockCode × Bool) : KRStockCode × Bool :=
  if d ≠ x.1.delisting_date then
    ({ x.1 with delisting_date := d, is_active := false }, true)
  else if d = none ∧ x.1.is_active = false then
    ({ x.1 with delisting_date := none, is_active := true }, true)
  else x

/-- Full update of an existing record for one company (lines 549-577),
stamping `updated_at` when anything changed. -/
def updateRecord (env : CollectEnv) (c : Company) (r : KRStockCode) : KRStockCode :=
  let d := check_if_delisted env.today (env.pykrx c.stock_symbol)
  let x := updDelist d (updName c (updMarket c (r, false)))
  if x.2 then { x.1 with updated_at := env.today } else x.1

/-- The new record created when no row for the symbol exists (lines
580-599). -/
def newRecord (env : CollectEnv) (c : Company) : KRStockCode :=
  let ipo := get_ipo_date_from_pykrx env.today (env.pykrx c.stock_symbol)
  let d := check_if_delisted env.today (env.pykrx c.stock_symbol)
  { stock_symbol := c.stock_symbol
    stock_market := c.stock_market
    company_name := c.company_name
    ipo_date := ipo
    delisting_date := d
    is_active := d.isNone
    created_at := env.today
    updated_at := env.today }

/-- A SQLAlchemy session over the `kr_stock_codes` table: the committed
rows (visible to queries) and the pending `session.add` inserts (invisible
until commit because `autoflush=False`). -/
structure DB where
  committed : List KRStockCode
  pending : List KRStockCode
deriving DecidableEq, Repr

/-- All rows the table will hold once the session commits. -/
def DB.rows (db : DB) : List KRStockCode :=
  db.committed ++ db.pending

/-- `session.commit()`: pending inserts become visible table rows. -/
def DB.commit (db : DB) : DB :=
  ⟨db.committed ++ db.pending, []⟩

/-- `session.query(KRStockCode).filter(stock_symbol == s).first()`
(lines 545-547). -/
def queryFirst (db : DB) (s : String) : Option KRStockCode :=
  db.committed.find? (fun r => r.stock_symbol == s)

/-- Body of one iteration of the company loop (lines 536-600): raises when
the environment says so; otherwise updates the existing record in place or
adds a new one to the session. -/
def processCompany (env : CollectEnv) (c : Company) (db : DB) : Except Unit DB :=
  if env.fail c then Except.error ()
  else
    match queryFirst db c.stock_symbol with
    | some _ =>
      Except.ok ⟨updateFirstBy (fun r => r.stock_symbol == c.stock_symbol)
        (updateRecord env c) db.committed, db.pending⟩
    | none =>
      Except.ok ⟨db.committed, db.pending ++ [newRecord env c]⟩

/-- The company loop of `collect_and_update_stock_symbols` (lines 535-610):
per-iteration exceptions are caught, counted and skipped; every 100th
iteration commits the session.  Returns the session, the error count and
the list of companies whose iteration body was entered. -/
def collectLoop (env : CollectEnv) : List Company → Nat → DB → DB × Nat × List Company
  | [], _, db => (db, 0, [])
  | c :: rest, i, db =>
    match processCompany env c db with
    | Except.error _ =>
      let r := collectLoop env rest (i + 1) db
      (r.1, r.2.1 + 1, c :: r.2.2)
    | Except.ok db1 =>
      let db2 := if (i + 1) % 100 == 0 then db1.commit else db1
      let r := collectLoop env rest (i + 1) db2
      (r.1, r.2.1, c :: r.2.2)

/-- `KRStockCodeCollector.collect_and_update_stock_symbols` (lines
505-625): cleanup duplicates, fetch the company list (a parameter here),
bail out with `False` when it is empty, otherwise run the company loop and
commit.  Returns the success flag and the final table. -/
def collect_and_update_stock_symbols (env : CollectEnv) (companies : List Company)
    (table : List KRStockCode) : Bool × List KRStockCode :=
  let table0 := (cleanup_duplicates env.cleanupFails table).1
  if companies = [] then (false, table0)
  else
    let (db, _errs, _att) := collectLoop env companies 0 ⟨table0, []⟩
    (true, db.commit.rows)

/-- A row of the DataFrame `get_stock_data_with_max_history` returns
(korean_stocks.py lines 291-357), after column renaming: one trading day of
one symbol.  The float-valued price columns are carried as opaque integer
payloads — no claim computes with them, they are only stored and
compared. -/
structure StockRow where
  symbol : String
  market : String
  longname : String
  high : Int
  low : Int
  open_price : Int
  close : Int
  volume : Int
  dividends : Int
  stock_splits : Int
  date : KDate
deriving DecidableEq, Repr

/-- A record of the `korean_stocks` table (class `KoreanStock`, lines
33-49).  The autoincrement `id` and the defaulted `created_at` are
omitted: neither is read anywhere. -/
structure KoreanStock where
  symbol : String
  market : String
  longname : String
  high : Int
  low : Int
  open_price : Int
  close : Int
  volume : Int
  dividends : Int
  stock_splits : Int
  date : KDate
deriving DecidableEq, Repr

/-- The filter of the upsert query (lines 438-441):
`KoreanStock.symbol == row['symbol'], KoreanStock.date == row['date']`. -/
def keyMatch (k : String × KDate) (r : KoreanStock) : Bool :=
  r.symbol == k.1 && r.date == k.2

/-- The natural key of a DataFrame row. -/
def rowKey (row : StockRow) : String × KDate :=
  (row.symbol, row.date)

/-- The natural key of a table record. -/
def recKey (r : KoreanStock) : String × KDate :=
  (r.symbol, r.date)

/-- The field assignments of the update branch (lines 443-452): the eight
data fields are overwritten; `symbol`, `date` and notably `market` are
not. -/
def updateExisting (row : StockRow) (r : KoreanStock) : KoreanStock :=
  { r with
    high := row.high
    low := row.low
    open_price := row.open_price
    close := row.close
    volume := row.volume
    dividends := row.dividends
    stock_splits := row.stock_splits
    longname := row.longname }

/-- The record built by the insert branch (lines 454-468). -/
def insertRow (row : StockRow) : KoreanStock :=
  { symbol := row.symbol
    market := row.market
    longname := row.longname
    high := row.high
    low := row.low
    open_price := row.open_price
    close := row.close
    volume := row.volume
    dividends := row.dividends
    stock_splits := row.stock_splits
    date := row.date }

/-- The row loop of `save_stock_data_to_db` (lines 436-468) over a session:
committed records (queried) and pending `session.add` inserts (invisible
until commit, `autoflush=False`). -/
def saveLoop : List StockRow → List KoreanStock → List KoreanStock →
    List KoreanStock × List KoreanStock
  | [], C, P => (C, P)
  | row :: rest, C, P =>
    match C.find? (keyMatch (row.symbol, row.date)) with
    | some _ =>
      saveLoop rest
        (updateFirstBy (keyMatch (row.symbol, row.date)) (updateExisting row) C) P
    | none => saveLoop rest C (P ++ [insertRow row])

/-- `KoreanStockCollector.save_stock_data_to_db` (lines 423-485): run the
row loop and commit; on a database error the session is rolled back (table
unchanged) and `False` is returned. -/
def save_stock_data_to_db (fails : Bool) (df : List StockRow)
    (table : List KoreanStock) : List KoreanStock × Bool :=
  if fails then (table, false)
  else
    let q := saveLoop df table []
    (q.1 ++ q.2, true)

/-- Python `str.strip()`: drop leading and trailing whitespace. -/
def pyStrip (s : String) : String :=
  String.mk (((s.data.dropWhile Char.isWhitespace).reverse.dropWhile
    Char.isWhitespace).reverse)

/-- One entry of the company list `collect_all_stocks_data` iterates over
(lines 194-199). -/
structure KCompany where
  corp_name : String
  stock_code : String
  market : String
deriving DecidableEq, Repr

/-- Environment of one `collect_all_stocks_data` run: which iteration
bodies raise, and the DataFrame `get_stock_data_with_max_history` yields
for a (symbol, market, company-name) triple. -/
structure KsEnv where
  fail : KCompany → Bool
  fetch : String → String → String → List StockRow

/-- `self.request_delay = 3.0` (korean_stocks.py line 66). -/
def request_delay : ℚ := 3

/-- Observable events of the collection loop: a per-ticker fetch, a
database save, and a `time.sleep` pause. -/
inductive KsEvent where
  | fetch (c : KCompany)
  | save (c : KCompany) (df : List StockRow)
  | sleep (secs : ℚ)
deriving DecidableEq, Repr

/-- The events one company contributes to the loop trace (lines 383-408):
nothing when its body raises or its stripped stock code is empty or not 6
characters; otherwise a fetch, a save when the frame is nonempty, and the
`time.sleep(self.request_delay)` pause. -/
def companyEvents (env : KsEnv) (c : KCompany) : List KsEvent :=
  if env.fail c then []
  else
    let s := pyStrip c.stock_code
    if s = "" ∨ s.length ≠ 6 then []
    else
      let df := env.fetch s c.market (pyStrip c.corp_name)
      KsEvent.fetch c ::
        ((if df.isEmpty then [] else [KsEvent.save c df]) ++
          [KsEvent.sleep request_delay])

/-- The rows one company contributes to `all_stock_data` (lines 397-398). -/
def companyRows (env : KsEnv) (c : KCompany) : List StockRow :=
  if env.fail c then []
  else
    let s := pyStrip c.stock_code
    if s = "" ∨ s.length ≠ 6 then []
    else
      let df := env.fetch s c.market (pyStrip c.corp_name)
      if df.isEmpty then [] else df

/-- `KoreanStockCollector.collect_all_stocks_data` (lines 363-421), as its
observable behaviour: the event trace, the concatenated collected rows
(the returned DataFrame), and the companies whose iteration body was
entered.  A per-iteration exception is caught and the loop continues. -/
def collect_all_stocks_data (env : KsEnv) :
    List KCompany → List KsEvent × List StockRow × List KCompany
  | [] => ([], [], [])
  | c :: rest =>
    let r := collect_all_stocks_data env rest
    if env.fail c then (r.1, r.2.1, c :: r.2.2)
    else
      let s := pyStrip c.stock_code
      if s = "" ∨ s.length ≠ 6 then (r.1, r.2.1, c :: r.2.2)
      else
        let df := env.fetch s c.market (pyStrip c.corp_name)
        ((KsEvent.fetch c ::
            ((if df.isEmpty then [] else [KsEvent.save c df]) ++
              [KsEvent.sleep request_delay])) ++ r.1,
          (if df.isEmpty then [] else df) ++ r.2.1,
          c :: r.2.2)

/-- Concatenation of the images of a list. -/
def concatMap {α β : Type} (f : α → List β) : List α → List β
  | [] => []
  | a :: l => f a ++ concatMap f l

end Invest

namespace Invest

theorem isEmpty_false_of_ne_nil {α : Type} {l : List α} (h : l ≠ []) :
    l.isEmpty = false := by
  cases l with
  | nil => exact absurd rfl h
  | cons a t => rfl

theorem dfMax_spec : ∀ (l : List KDate), l ≠ [] →
    ∃ m, dfMax l = some m ∧ m ∈ l ∧ ∀ d ∈ l, d ≤ m := by
  intro l
  induction l with
  | nil => intro h; exact absurd rfl h
  | cons d l ih =>
    intro _
    by_cases hl : l = []
    · subst hl
      exact ⟨d, by simp [dfMax], by simp, by simp⟩
    · obtain ⟨m, hm, hmem, hub⟩ := ih hl
      have hrw : dfMax (d :: l) = some (max d m) := by
        simp only [dfMax, hm]
      refine ⟨max d m, hrw, ?_, ?_⟩
      · rcases max_choice d m with h | h
        · rw [h]; exact List.mem_cons_self _ _
        · rw [h]; exact List.mem_cons_of_mem _ hmem
      · intro x hx
        rcases List.mem_cons.mp hx with rfl | hx
        · exact le_max_left _ _
        · exact le_trans (hub x hx) (le_max_right _ _)

theorem dfMin_spec : ∀ (l : List KDate), l ≠ [] →
    ∃ m, dfMin l = some m ∧ m ∈ l ∧ ∀ d ∈ l, m ≤ d := by
  intro l
  induction l with
  | nil => intro h; exact absurd rfl h
  | cons d l ih =>
    intro _
    by_cases hl : l = []
    · subst hl
      exact ⟨d, by simp [dfMin], by simp, by simp⟩
    · obtain ⟨m, hm, hmem, hlb⟩ := ih hl
      have hrw : dfMin (d :: l) = some (min d m) := by
        simp only [dfMin, hm]
      refine ⟨min d m, hrw, ?_, ?_⟩
      · rcases min_choice d m with h | h
        · rw [h]; exact List.mem_cons_self _ _
        · rw [h]; exact List.mem_cons_of_mem _ hmem
      · intro x hx
        rcases List.mem_cons.mp hx with rfl | hx
        · exact min_le_left _ _
        · exact le_trans (min_le_right _ _) (hlb x hx)

/-- With both fetches succeeding and every row dated at or before today,
the since-1990 fetch returns the whole history. -/
theorem ohlcv_since1990_eq (today : KDate) (e : PykrxEnv)
    (h2 : e.fullFails = false) (hpast : ∀ d ∈ e.history, d ≤ today) :
    get_market_ohlcv_since1990 today e = Except.ok e.history := by
  simp only [get_market_ohlcv_since1990, h2, if_false, Bool.false_eq_true]
  congr 1
  apply List.filter_eq_self.mpr
  intro d hd
  simp [date1990, hpast d hd]

/-- C3: `check_if_delisted(symbol)` returns `None` whenever the symbol has a
price-history row within the last 30 days; otherwise it returns the latest
date for which any price-history row exists; and it returns `None` when the
symbol has no price-history rows at all.  (Hypotheses: the two fetches
succeed — failures are claim C10 — and every price row is dated no later
than today.) -/
theorem check_if_delisted_spec (today : KDate) (e : PykrxEnv)
    (h1 : e.recentFails = false) (h2 : e.fullFails = false)
    (hpast : ∀ d ∈ e.history, d ≤ today) :
    ((∃ d ∈ e.history, today - 30 ≤ d) → check_if_delisted today e = none)
    ∧ ((∀ d ∈ e.history, d < today - 30) → e.history ≠ [] →
        ∃ m, check_if_delisted today e = some m ∧ m ∈ e.history ∧ ∀ d ∈ e.history, d ≤ m)
    ∧ (e.history = [] → check_if_delisted today e = none) := by
  refine ⟨?_, ?_, ?_⟩
  · rintro ⟨d, hd, hrec⟩
    have hcond : ∃ x ∈ e.history, today ≤ x + 30 ∧ x ≤ today :=
      ⟨d, hd, Nat.sub_le_iff_le_add.mp hrec, hpast d hd⟩
    simp [check_if_delisted, check_if_delisted_run, get_market_ohlcv_recent, h1, hcond]
  · intro hold hne
    have hncond : ¬ ∃ x ∈ e.history, today ≤ x + 30 ∧ x ≤ today := by
      rintro ⟨x, hx, hle, _⟩
      exact absurd hle (not_le_of_lt (Nat.add_lt_of_lt_sub (hold x hx)))
    obtain ⟨m, hm, hmem, hub⟩ := dfMax_spec e.history hne
    refine ⟨m, ?_, hmem, hub⟩
    simp [check_if_delisted, check_if_delisted_run, get_market_ohlcv_recent, h1,
      hncond, ohlcv_since1990_eq today e h2 hpast, isEmpty_false_of_ne_nil hne, hm]
  · intro hnil
    simp [check_if_delisted, check_if_delisted_run, get_market_ohlcv_recent,
      get_market_ohlcv_since1990, h1, h2, hnil]

/-- Witness for C3: two concrete histories, one with a trade 5 days ago
(still active) and one whose last trade was 60 days ago (delisted, latest
row reported). -/
theorem check_if_delisted_spec_witness :
    check_if_delisted 100 ⟨[95, 40], false, false⟩ = none
    ∧ ∃ m, check_if_delisted 100 ⟨[35, 40], false, false⟩ = some m
        ∧ m ∈ [35, 40] ∧ ∀ d ∈ [35, 40], d ≤ m := by
  constructor
  · exact (check_if_delisted_spec 100 ⟨[95, 40], false, false⟩ rfl rfl
      (by decide)).1 ⟨95, by decide, by decide⟩
  · exact (check_if_delisted_spec 100 ⟨[35, 40], false, false⟩ rfl rfl
      (by decide)).2.1 (by decide) (by decide)

/-- C4: `get_ipo_date_from_pykrx(symbol)` returns the earliest date among the
symbol's price-history rows when at least one exists, and `None` when the
symbol has no price-history rows.  (Hypotheses: the fetch succeeds and every
price row is dated no later than today.) -/
theorem get_ipo_date_spec (today : KDate) (e : PykrxEnv)
    (h2 : e.fullFails = false) (hpast : ∀ d ∈ e.history, d ≤ today) :
    (e.history ≠ [] →
      ∃ m, get_ipo_date_from_pykrx today e = some m ∧ m ∈ e.history ∧ ∀ d ∈ e.history, m ≤ d)
    ∧ (e.history = [] → get_ipo_date_from_pykrx today e = none) := by
  constructor
  · intro hne
    obtain ⟨m, hm, hmem, hlb⟩ := dfMin_spec e.history hne
    refine ⟨m, ?_, hmem, hlb⟩
    simp [get_ipo_date_from_pykrx, get_ipo_date_run,
      ohlcv_since1990_eq today e h2 hpast, isEmpty_false_of_ne_nil hne, hm]
  · intro hnil
    simp [get_ipo_date_from_pykrx, get_ipo_date_run, get_market_ohlcv_since1990,
      h2, hnil]

/-- Witness for C4: a history whose earliest row is day 35. -/
theorem get_ipo_date_spec_witness :
    ∃ m, get_ipo_date_from_pykrx 100 ⟨[40, 35, 95], false, false⟩ = some m
      ∧ m ∈ [40, 35, 95] ∧ ∀ d ∈ [40, 35, 95], m ≤ d :=
  (get_ipo_date_spec 100 ⟨[40, 35, 95], false, false⟩ rfl (by decide)).1 (by decide)

/-- C10: the date-proxy lookups never propagate a fetch failure — whenever an
underlying price-history fetch raises, `check_if_delisted` returns `None`
(indistinguishable from "still active") and `get_ipo_date_from_pykrx`
returns `None` (indistinguishable from "no IPO date available"). -/
theorem pykrx_failures_yield_none (today : KDate) (e : PykrxEnv) :
    ((e.recentFails = true ∨ e.fullFails = true) → check_if_delisted today e = none)
    ∧ (e.fullFails = true → get_ipo_date_from_pykrx today e = none) := by
  constructor
  · intro hfail
    rcases hfail with h | h
    · simp [check_if_delisted, check_if_delisted_run, get_market_ohlcv_recent, h]
    · cases hr : e.recentFails with
      | true =>
        simp [check_if_delisted, check_if_delisted_run, get_market_ohlcv_recent, hr]
      | false =>
        by_cases hx : ∃ x ∈ e.history, today ≤ x + 30 ∧ x ≤ today
        · simp [check_if_delisted, check_if_delisted_run, get_market_ohlcv_recent,
            get_market_ohlcv_since1990, hr, h, hx]
        · simp [check_if_delisted, check_if_delisted_run, get_market_ohlcv_recent,
            get_market_ohlcv_since1990, hr, h, hx]
  · intro h
    simp [get_ipo_date_from_pykrx, get_ipo_date_run, get_market_ohlcv_since1990, h]

/-- Witness for C10: concrete failing fetch environments. -/
theorem pykrx_failures_yield_none_witness :
    check_if_delisted 100 ⟨[95], true, false⟩ = none
    ∧ get_ipo_date_from_pykrx 100 ⟨[95], false, true⟩ = none :=
  ⟨(pykrx_failures_yield_none 100 ⟨[95], true, false⟩).1 (Or.inl rfl),
    (pykrx_failures_yield_none 100 ⟨[95], false, true⟩).2 rfl⟩

theorem symbolGroup_cons (s : String) (r : KRStockCode) (l : List KRStockCode) :
    symbolGroup s (r :: l) =
      if r.stock_symbol == s then r :: symbolGroup s l else symbolGroup s l := by
  simp [symbolGroup, List.filter_cons]

theorem symbolGroup_append (s : String) (A B : List KRStockCode) :
    symbolGroup s (A ++ B) = symbolGroup s A ++ symbolGroup s B := by
  simp [symbolGroup, List.filter_append]

theorem countSym_append (A B : List KRStockCode) (s : String) :
    countSym (A ++ B) s = countSym A s + countSym B s := by
  simp [countSym, symbolGroup_append]

theorem countSym_eq_zero_iff (l : List KRStockCode) (s : String) :
    countSym l s = 0 ↔ ∀ r ∈ l, r.stock_symbol ≠ s := by
  simp [countSym, symbolGroup, List.length_eq_zero, List.filter_eq_nil_iff]

theorem countSym_pos_iff (l : List KRStockCode) (s : String) :
    0 < countSym l s ↔ s ∈ l.map (fun r => r.stock_symbol) := by
  constructor
  · intro h
    have hne : symbolGroup s l ≠ [] := by
      intro hnil
      rw [countSym, hnil] at h
      exact absurd h (by simp)
    obtain ⟨r, hr⟩ := List.exists_mem_of_ne_nil _ hne
    have hmem := List.mem_filter.mp hr
    exact List.mem_map.mpr ⟨r, hmem.1, by simpa using hmem.2⟩
  · intro h
    obtain ⟨r, hrl, hrs⟩ := List.mem_map.mp h
    rw [countSym, List.length_pos]
    intro hnil
    have hmem : r ∈ symbolGroup s l := List.mem_filter.mpr ⟨hrl, by simp [hrs]⟩
    rw [hnil] at hmem
    exact absurd hmem (List.not_mem_nil r)

theorem map_updateFirstBy {α β : Type} (g : α → β) (p : α → Bool) (f : α → α)
    (h : ∀ x, g (f x) = g x) : ∀ l : List α, (updateFirstBy p f l).map g = l.map g := by
  intro l
  induction l with
  | nil => rfl
  | cons r t ih =>
    by_cases hp : p r
    · simp [updateFirstBy, hp, h]
    · simp [updateFirstBy, hp, ih]

theorem countSym_eq_of_map_eq {l l' : List KRStockCode}
    (h : l.map (fun r => r.stock_symbol) = l'.map (fun r => r.stock_symbol)) (s : String) :
    countSym l s = countSym l' s := by
  have e : ∀ m : List KRStockCode, countSym m s =
      ((m.map (fun r => r.stock_symbol)).filter (fun t => t == s)).length := by
    intro m
    induction m with
    | nil => rfl
    | cons r t ih =>
      simp only [countSym, symbolGroup, List.filter_cons, List.map_cons] at ih ⊢
      by_cases hr : (r.stock_symbol == s) = true
      · simp [hr, ih]
      · simp [hr, ih]
  rw [e l, e l', h]

theorem updMarket_fst_symbol (c : Company) (x : KRStockCode × Bool) :
    ((updMarket c x).1).stock_symbol = x.1.stock_symbol := by
  unfold updMarket
  split <;> rfl

theorem updName_fst_symbol (c : Company) (x : KRStockCode × Bool) :
    ((updName c x).1).stock_symbol = x.1.stock_symbol := by
  unfold updName
  split <;> rfl

theorem updDelist_fst_symbol (d : Option KDate) (x : KRStockCode × Bool) :
    ((updDelist d x).1).stock_symbol = x.1.stock_symbol := by
  unfold updDelist
  split
  · rfl
  · split <;> rfl

theorem updateRecord_symbol (env : CollectEnv) (c : Company) (r : KRStockCode) :
    (updateRecord env c r).stock_symbol = r.stock_symbol := by
  simp only [updateRecord]
  split <;>
    simp [updDelist_fst_symbol, updName_fst_symbol, updMarket_fst_symbol]

theorem keepGo_length (s : String) (m : KDate) :
    ∀ (rows : List KRStockCode) (found : Bool),
      (keepGo s m rows found).1.length + (keepGo s m rows found).2 = rows.length := by
  intro rows
  induction rows with
  | nil => intro found; rfl
  | cons r t ih =>
    intro found
    by_cases hs : (r.stock_symbol == s) = true
    · by_cases hk : (!found && r.updated_at == m) = true
      · have := ih true
        simp [keepGo, hs, hk]
        omega
      · have := ih found
        simp [keepGo, hs, hk]
        omega
    · have := ih found
      simp [keepGo, hs]
      omega

theorem keepGo_sublist (s : String) (m : KDate) :
    ∀ (rows : List KRStockCode) (found : Bool),
      (keepGo s m rows found).1.Sublist rows := by
  intro rows
  induction rows with
  | nil => intro found; simp [keepGo]
  | cons r t ih =>
    intro found
    by_cases hs : (r.stock_symbol == s) = true
    · by_cases hk : (!found && r.updated_at == m) = true
      · simpa [keepGo, hs, hk] using (ih true).cons₂ r
      · simp only [keepGo, hs, hk]
        exact (ih found).cons r
    · simpa [keepGo, hs] using (ih found).cons₂ r

theorem keepGo_group_other (s : String) (m : KDate) (s' : String) (hss : s' ≠ s) :
    ∀ (rows : List KRStockCode) (found : Bool),
      symbolGroup s' (keepGo s m rows found).1 = symbolGroup s' rows := by
  intro rows
  induction rows with
  | nil => intro found; rfl
  | cons r t ih =>
    intro found
    by_cases hs : (r.stock_symbol == s) = true
    · have hr' : (r.stock_symbol == s') = false := by
        have hrs : r.stock_symbol = s := by simpa using hs
        simp [hrs]
        exact fun hc => absurd hc.symm hss
      by_cases hk : (!found && r.updated_at == m) = true
      · simp [keepGo, hs, hk, symbolGroup_cons, hr', ih true]
      · simp [keepGo, hs, hk, symbolGroup_cons, hr', ih found]
    · by_cases hr' : (r.stock_symbol == s') = true
      · simp [keepGo, hs, symbolGroup_cons, hr', ih found]
      · simp [keepGo, hs, symbolGroup_cons, hr', ih found]

theorem keepGo_group_found (s : String) (m : KDate) :
    ∀ rows : List KRStockCode, symbolGroup s (keepGo s m rows true).1 = [] := by
  intro rows
  induction rows with
  | nil => rfl
  | cons r t ih =>
    by_cases hs : (r.stock_symbol == s) = true
    · simp [keepGo, hs, ih]
    · simp [keepGo, hs, symbolGroup_cons, ih]

theorem keepGo_group_pick (s : String) (m : KDate) :
    ∀ rows : List KRStockCode,
      m ∈ (symbolGroup s rows).map (fun r => r.updated_at) →
      ∃ r, symbolGroup s (keepGo s m rows false).1 = [r]
        ∧ r ∈ symbolGroup s rows ∧ r.updated_at = m := by
  intro rows
  induction rows with
  | nil => intro h; simp [symbolGroup] at h
  | cons r t ih =>
    intro hm
    by_cases hs : (r.stock_symbol == s) = true
    · by_cases hu : (r.updated_at == m) = true
      · refine ⟨r, ?_, ?_, by simpa using hu⟩
        · simp [keepGo, hs, hu, symbolGroup_cons, keepGo_group_found]
        · simp [symbolGroup_cons, hs]
      · have hm' : m ∈ (symbolGroup s t).map (fun x => x.updated_at) := by
          rw [symbolGroup_cons, if_pos hs, List.map_cons] at hm
          rcases List.mem_cons.mp hm with h | h
          · exact absurd h.symm (by simpa using hu)
          · exact h
        obtain ⟨r', hg, hmem, hupd⟩ := ih hm'
        refine ⟨r', ?_, ?_, hupd⟩
        · simpa [keepGo, hs, hu] using hg
        · rw [symbolGroup_cons, if_pos hs]
          exact List.mem_cons_of_mem r hmem
    · have hm' : m ∈ (symbolGroup s t).map (fun x => x.updated_at) := by
        rwa [symbolGroup_cons, if_neg (by simpa using hs)] at hm
      obtain ⟨r', hg, hmem, hupd⟩ := ih hm'
      refine ⟨r', ?_, ?_, hupd⟩
      · simpa [keepGo, hs, symbolGroup_cons] using hg
      · rwa [symbolGroup_cons, if_neg (by simpa using hs)]

theorem keepGo_id_of_group_nil (s : String) (m : KDate) :
    ∀ (rows : List KRStockCode) (found : Bool),
      symbolGroup s rows = [] → keepGo s m rows found = (rows, 0) := by
  intro rows
  induction rows with
  | nil => intro found _; rfl
  | cons r t ih =>
    intro found hg
    rw [symbolGroup_cons] at hg
    by_cases hs : (r.stock_symbol == s) = true
    · rw [if_pos hs] at hg
      exact absurd hg (by simp)
    · rw [if_neg (by simpa using hs)] at hg
      simp [keepGo, hs, ih found hg]

theorem keepGo_id_of_group_singleton (s : String) :
    ∀ (rows : List KRStockCode) (r0 : KRStockCode),
      symbolGroup s rows = [r0] →
      keepGo s r0.updated_at rows false = (rows, 0) := by
  intro rows
  induction rows with
  | nil => intro r0 h; simp [symbolGroup] at h
  | cons r t ih =>
    intro r0 h
    rw [symbolGroup_cons] at h
    by_cases hs : (r.stock_symbol == s) = true
    · rw [if_pos hs] at h
      obtain ⟨hr, hgt⟩ : r = r0 ∧ symbolGroup s t = [] := by simpa using h
      subst hr
      simp [keepGo, hs, keepGo_id_of_group_nil s r.updated_at t true hgt]
    · rw [if_neg (by simpa using hs)] at h
      simp [keepGo, hs, ih r0 h]

theorem keepLatestCount_length (s : String) (cur : List KRStockCode) :
    (keepLatestCount s cur).1.length + (keepLatestCount s cur).2 = cur.length := by
  unfold keepLatestCount
  cases hm : dfMax ((symbolGroup s cur).map (fun r => r.updated_at)) with
  | none => rfl
  | some m => exact keepGo_length s m cur false

theorem keepLatestCount_sublist (s : String) (cur : List KRStockCode) :
    (keepLatestCount s cur).1.Sublist cur := by
  unfold keepLatestCount
  cases hm : dfMax ((symbolGroup s cur).map (fun r => r.updated_at)) with
  | none => exact List.Sublist.refl cur
  | some m => exact keepGo_sublist s m cur false

theorem keepLatestCount_group_other (s s' : String) (h : s' ≠ s)
    (cur : List KRStockCode) :
    symbolGroup s' (keepLatestCount s cur).1 = symbolGroup s' cur := by
  unfold keepLatestCount
  cases hm : dfMax ((symbolGroup s cur).map (fun r => r.updated_at)) with
  | none => rfl
  | some m => exact keepGo_group_other s m s' h cur false

theorem keepLatestCount_pick (s : String) (cur : List KRStockCode)
    (hne : symbolGroup s cur ≠ []) :
    ∃ r, symbolGroup s (keepLatestCount s cur).1 = [r]
      ∧ r ∈ symbolGroup s cur
      ∧ ∀ r' ∈ symbolGroup s cur, r'.updated_at ≤ r.updated_at := by
  obtain ⟨m, hm, hmem, hub⟩ :=
    dfMax_spec ((symbolGroup s cur).map (fun r => r.updated_at)) (by simpa using hne)
  obtain ⟨r, hg, hrmem, hru⟩ := keepGo_group_pick s m cur hmem
  refine ⟨r, ?_, hrmem, ?_⟩
  · unfold keepLatestCount
    rw [hm]
    exact hg
  · intro r' hr'
    have := hub _ (List.mem_map_of_mem (fun x => x.updated_at) hr')
    rw [hru]
    exact this

theorem keepLatestCount_id_of_le_one (s : String) (cur : List KRStockCode)
    (h : countSym cur s ≤ 1) : keepLatestCount s cur = (cur, 0) := by
  cases hg : symbolGroup s cur with
  | nil =>
    unfold keepLatestCount
    rw [hg]
    rfl
  | cons r0 t =>
    have ht : t = [] := by
      have hlen := h
      rw [countSym, hg] at hlen
      simp only [List.length_cons] at hlen
      exact List.length_eq_zero.mp (by omega)
    subst ht
    unfold keepLatestCount
    rw [hg]
    simp only [List.map_cons, List.map_nil, dfMax]
    exact keepGo_id_of_group_singleton s cur r0 hg

theorem cleanup_fold_id :
    ∀ (syms : List String) (cur : List KRStockCode) (k : Nat),
      (∀ s ∈ syms, countSym cur s ≤ 1) →
      syms.foldl cleanupStep (cur, k) = (cur, k) := by
  intro syms
  induction syms with
  | nil => intro cur k _; rfl
  | cons s0 rest ih =>
    intro cur k h
    have hstep : cleanupStep (cur, k) s0 = (cur, k) := by
      simp [cleanupStep, keepLatestCount_id_of_le_one s0 cur (h s0 (by simp))]
    rw [List.foldl_cons, hstep]
    exact ih cur k (fun s hsx => h s (List.mem_cons_of_mem s0 hsx))

/-- `cleanup_duplicates` on a table that already has at most one row per
symbol removes nothing. -/
theorem cleanup_id_of_atMostOne (b : Bool) (rows : List KRStockCode)
    (h : AtMostOnePerSymbol rows) : cleanup_duplicates b rows = (rows, 0) := by
  cases b with
  | true => rfl
  | false =>
    have heq : cleanup_duplicates false rows
        = (if 1 < rows.length then (rows.map (fun r => r.stock_symbol)).dedup
            else []).foldl cleanupStep (rows, 0) := rfl
    by_cases hlen : 1 < rows.length
    · rw [heq, if_pos hlen]
      exact cleanup_fold_id _ rows 0 (fun s _ => h s)
    · rw [heq, if_neg hlen]
      rfl

theorem cleanup_fold_spec :
    ∀ (syms : List String) (cur : List KRStockCode) (k : Nat) (rows : List KRStockCode),
      syms.Nodup →
      (∀ s ∈ syms, symbolGroup s cur = symbolGroup s rows) →
      cur.Sublist rows →
      k + cur.length = rows.length →
      (syms.foldl cleanupStep (cur, k)).1.Sublist rows
      ∧ (syms.foldl cleanupStep (cur, k)).2 + (syms.foldl cleanupStep (cur, k)).1.length
          = rows.length
      ∧ (∀ s, s ∉ syms →
          symbolGroup s (syms.foldl cleanupStep (cur, k)).1 = symbolGroup s cur)
      ∧ (∀ s ∈ syms, symbolGroup s rows ≠ [] →
          ∃ r, symbolGroup s (syms.foldl cleanupStep (cur, k)).1 = [r]
            ∧ r ∈ symbolGroup s rows
            ∧ ∀ r' ∈ symbolGroup s rows, r'.updated_at ≤ r.updated_at) := by
  intro syms
  induction syms with
  | nil =>
    intro cur k rows _ _ hsub hlen
    exact ⟨hsub, by simpa using hlen, fun s _ => rfl, fun s hs => absurd hs (by simp)⟩
  | cons s0 rest ih =>
    intro cur k rows hnd hgr hsub hlen
    have hs0nr : s0 ∉ rest := (List.nodup_cons.mp hnd).1
    have hndr : rest.Nodup := (List.nodup_cons.mp hnd).2
    have hstep : List.foldl cleanupStep (cur, k) (s0 :: rest)
        = List.foldl cleanupStep ((keepLatestCount s0 cur).1, k + (keepLatestCount s0 cur).2)
            rest := by
      rw [List.foldl_cons]
      rfl
    set cur1 := (keepLatestCount s0 cur).1 with hcur1
    set k1 := k + (keepLatestCount s0 cur).2 with hk1
    have hgr1 : ∀ s ∈ rest, symbolGroup s cur1 = symbolGroup s rows := by
      intro s hs
      have hne : s ≠ s0 := fun he => absurd (he ▸ hs) hs0nr
      rw [hcur1, keepLatestCount_group_other s0 s hne cur]
      exact hgr s (List.mem_cons_of_mem s0 hs)
    have hsub1 : cur1.Sublist rows := (keepLatestCount_sublist s0 cur).trans hsub
    have hlen1 : k1 + cur1.length = rows.length := by
      have := keepLatestCount_length s0 cur
      rw [hk1, hcur1]
      omega
    obtain ⟨c1, c2, c3, c4⟩ := ih cur1 k1 rows hndr hgr1 hsub1 hlen1
    rw [hstep]
    refine ⟨c1, c2, ?_, ?_⟩
    · intro s hs
      have hs0 : s ≠ s0 := fun he => hs (he ▸ List.mem_cons_self s0 rest)
      have hsr : s ∉ rest := fun hx => hs (List.mem_cons_of_mem s0 hx)
      rw [c3 s hsr, hcur1, keepLatestCount_group_other s0 s hs0 cur]
    · intro s hs hne
      rcases List.mem_cons.mp hs with rfl | hsr
      · have hgcur : symbolGroup s cur = symbolGroup s rows := hgr s (by simp)
        obtain ⟨r, hg1, hrmem, hmax⟩ :=
          keepLatestCount_pick s cur (by rw [hgcur]; exact hne)
        refine ⟨r, ?_, by rwa [hgcur] at hrmem, ?_⟩
        · rw [c3 s hs0nr, hcur1]
          exact hg1
        · intro r' hr'
          exact hmax r' (by rwa [hgcur])
      · exact c4 s hsr hne

/-- C8: `cleanup_duplicates` only deletes rows; it returns the number of
rows deleted; for every stock symbol present in the table exactly one row
survives — one of that symbol's original rows, carrying the greatest
`updated_at` of the group — so symbols with more than one row lose all but
that row and symbols with exactly one row are untouched; and on an
exception the session is rolled back (table unchanged) and 0 is
returned. -/
theorem cleanup_duplicates_spec (rows : List KRStockCode) :
    cleanup_duplicates true rows = (rows, 0)
    ∧ (cleanup_duplicates false rows).1.Sublist rows
    ∧ (cleanup_duplicates false rows).2 + (cleanup_duplicates false rows).1.length
        = rows.length
    ∧ (∀ s, s ∈ rows.map (fun r => r.stock_symbol) →
        ∃ r, symbolGroup s (cleanup_duplicates false rows).1 = [r]
          ∧ r ∈ symbolGroup s rows
          ∧ ∀ r' ∈ symbolGroup s rows, r'.updated_at ≤ r.updated_at)
    ∧ (∀ s r0, symbolGroup s rows = [r0] →
        symbolGroup s (cleanup_duplicates false rows).1 = [r0]) := by
  have hmain : (cleanup_duplicates false rows).1.Sublist rows
      ∧ (cleanup_duplicates false rows).2 + (cleanup_duplicates false rows).1.length
          = rows.length
      ∧ (∀ s, s ∈ rows.map (fun r => r.stock_symbol) →
          ∃ r, symbolGroup s (cleanup_duplicates false rows).1 = [r]
            ∧ r ∈ symbolGroup s rows
            ∧ ∀ r' ∈ symbolGroup s rows, r'.updated_at ≤ r.updated_at) := by
    have heq0 : cleanup_duplicates false rows
        = (if 1 < rows.length then (rows.map (fun r => r.stock_symbol)).dedup
            else []).foldl cleanupStep (rows, 0) := rfl
    by_cases hlen : 1 < rows.length
    · have heq : cleanup_duplicates false rows
          = (rows.map (fun r => r.stock_symbol)).dedup.foldl cleanupStep (rows, 0) := by
        rw [heq0, if_pos hlen]
      obtain ⟨c1, c2, _, c4⟩ := cleanup_fold_spec
        (rows.map (fun r => r.stock_symbol)).dedup rows 0 rows
        (List.nodup_dedup _) (fun s _ => rfl) (List.Sublist.refl rows) (by simp)
      rw [heq]
      refine ⟨c1, c2, ?_⟩
      intro s hs
      refine c4 s (List.mem_dedup.mpr hs) ?_
      intro hnil
      have := (countSym_pos_iff rows s).mpr hs
      rw [countSym, hnil] at this
      exact absurd this (by simp)
    · have heq : cleanup_duplicates false rows = (rows, 0) := by
        rw [heq0, if_neg hlen]
        rfl
      rw [heq]
      refine ⟨List.Sublist.refl rows, by simp, ?_⟩
      intro s hs
      have hpos := (countSym_pos_iff rows s).mpr hs
      have hle : countSym rows s ≤ 1 := by
        have hsub2 : (symbolGroup s rows).Sublist rows := by
          rw [symbolGroup]
          exact List.filter_sublist rows
        have hlelen := hsub2.length_le
        rw [countSym]
        omega
      have hone : countSym rows s = 1 := le_antisymm hle hpos
      rw [countSym] at hone
      obtain ⟨r, hr⟩ := List.length_eq_one.mp hone
      refine ⟨r, hr, by rw [hr]; exact List.mem_cons_self r [], ?_⟩
      intro r' hr'
      rw [hr] at hr'
      have : r' = r := by simpa using hr'
      rw [this]
  refine ⟨rfl, hmain.1, hmain.2.1, hmain.2.2, ?_⟩
  intro s r0 h0
  have hr0 : r0 ∈ symbolGroup s rows := by
    rw [h0]
    exact List.mem_cons_self r0 []
  have hmemf := List.mem_filter.mp hr0
  have hs : s ∈ rows.map (fun r => r.stock_symbol) :=
    List.mem_map.mpr ⟨r0, hmemf.1, by simpa using hmemf.2⟩
  obtain ⟨r, hg, hrmem, _⟩ := hmain.2.2 s hs
  rw [h0] at hrmem
  have hrr : r = r0 := by simpa using hrmem
  rw [hrr] at hg
  exact hg

/-- Witness for C8: a table holding symbol A twice (updated day 5 and day
9) and symbol B once; the day-9 A-row survives and B is untouched. -/
theorem cleanup_duplicates_spec_witness :
    (∃ r, symbolGroup "A" (cleanup_duplicates false
        ([⟨"A", "K", "a", none, none, true, 1, 5⟩,
          ⟨"A", "K", "a2", none, none, true, 1, 9⟩,
          ⟨"B", "K", "b", none, none, true, 1, 3⟩] : List KRStockCode)).1 = [r]
      ∧ r ∈ symbolGroup "A"
          ([⟨"A", "K", "a", none, none, true, 1, 5⟩,
            ⟨"A", "K", "a2", none, none, true, 1, 9⟩,
            ⟨"B", "K", "b", none, none, true, 1, 3⟩] : List KRStockCode)
      ∧ ∀ r' ∈ symbolGroup "A"
          ([⟨"A", "K", "a", none, none, true, 1, 5⟩,
            ⟨"A", "K", "a2", none, none, true, 1, 9⟩,
            ⟨"B", "K", "b", none, none, true, 1, 3⟩] : List KRStockCode),
          r'.updated_at ≤ r.updated_at)
    ∧ symbolGroup "B" (cleanup_duplicates false
        ([⟨"A", "K", "a", none, none, true, 1, 5⟩,
          ⟨"A", "K", "a2", none, none, true, 1, 9⟩,
          ⟨"B", "K", "b", none, none, true, 1, 3⟩] : List KRStockCode)).1
      = [⟨"B", "K", "b", none, none, true, 1, 3⟩] :=
  ⟨(cleanup_duplicates_spec _).2.2.2.1 "A" (by decide),
    (cleanup_duplicates_spec _).2.2.2.2 "B" _ (by decide)⟩

theorem DB.rows_commit (db : DB) : db.commit.rows = db.rows := by
  simp [DB.commit, DB.rows]

theorem commitIf_rows (b : Bool) (db : DB) :
    (if b then db.commit else db).rows = db.rows := by
  cases b with
  | true => simp [DB.rows_commit]
  | false => rfl

theorem commitIf_pending_zero (b : Bool) (db : DB) (s : String)
    (h : countSym db.pending s = 0) :
    countSym (if b then db.commit else db).pending s = 0 := by
  cases b with
  | true => rfl
  | false => exact h

theorem countSym_singleton (r : KRStockCode) (s : String) :
    countSym [r] s = if r.stock_symbol == s then 1 else 0 := by
  by_cases h : (r.stock_symbol == s) = true
  · simp [countSym, symbolGroup, List.filter, h]
  · simp [countSym, symbolGroup, List.filter, h]

/-- Invariant of the company loop: with pairwise distinct incoming symbols
and no pending insert clashing with a remaining company, at most one row
per symbol is preserved and no table symbol disappears. -/
theorem collectLoop_inv (env : CollectEnv) :
    ∀ (companies : List Company) (i : Nat) (db : DB),
      AtMostOnePerSymbol db.rows →
      (companies.map (fun c => c.stock_symbol)).Nodup →
      (∀ c ∈ companies, countSym db.pending c.stock_symbol = 0) →
      AtMostOnePerSymbol (collectLoop env companies i db).1.rows
      ∧ (∀ s, s ∈ db.rows.map (fun r => r.stock_symbol) →
          s ∈ (collectLoop env companies i db).1.rows.map (fun r => r.stock_symbol)) := by
  intro companies
  induction companies with
  | nil =>
    intro i db h1 h2 h3
    exact ⟨h1, fun s hs => hs⟩
  | cons c rest ih =>
    intro i db h1 h2 h3
    rw [List.map_cons, List.nodup_cons] at h2
    obtain ⟨hcnr, h2r⟩ := h2
    by_cases hf : env.fail c = true
    · have hred : (collectLoop env (c :: rest) i db).1
          = (collectLoop env rest (i + 1) db).1 := by
        simp [collectLoop, processCompany, hf]
      rw [hred]
      exact ih (i + 1) db h1 h2r (fun c' hc' => h3 c' (List.mem_cons_of_mem c hc'))
    · have hf' : env.fail c = false := by
        cases henv : env.fail c with
        | true => exact absurd henv hf
        | false => rfl
      cases hq : queryFirst db c.stock_symbol with
      | some r0 =>
        set db1 : DB := ⟨updateFirstBy (fun r => r.stock_symbol == c.stock_symbol)
          (updateRecord env c) db.committed, db.pending⟩ with hdb1
        set db2 : DB := if ((i + 1) % 100 == 0) then db1.commit else db1 with hdb2
        have hred : (collectLoop env (c :: rest) i db).1
            = (collectLoop env rest (i + 1) db2).1 := by
          simp [collectLoop, processCompany, hf', hq, hdb2, hdb1]
        have hmap : db1.rows.map (fun r => r.stock_symbol)
            = db.rows.map (fun r => r.stock_symbol) := by
          rw [hdb1]
          simp only [DB.rows, List.map_append]
          rw [map_updateFirstBy (fun r => r.stock_symbol) _ _
            (fun x => updateRecord_symbol env c x)]
        have hmap2 : db2.rows.map (fun r => r.stock_symbol)
            = db.rows.map (fun r => r.stock_symbol) := by
          rw [hdb2, commitIf_rows, hmap]
        have h1' : AtMostOnePerSymbol db2.rows := by
          intro s
          rw [countSym_eq_of_map_eq hmap2 s]
          exact h1 s
        have h3' : ∀ c' ∈ rest, countSym db2.pending c'.stock_symbol = 0 := by
          intro c' hc'
          rw [hdb2]
          exact commitIf_pending_zero _ db1 _ (h3 c' (List.mem_cons_of_mem c hc'))
        obtain ⟨ha, hm⟩ := ih (i + 1) db2 h1' h2r h3'
        rw [hred]
        refine ⟨ha, ?_⟩
        intro s hs
        exact hm s (by rw [hmap2]; exact hs)
      | none =>
        set db1 : DB := ⟨db.committed, db.pending ++ [newRecord env c]⟩ with hdb1
        set db2 : DB := if ((i + 1) % 100 == 0) then db1.commit else db1 with hdb2
        have hred : (collectLoop env (c :: rest) i db).1
            = (collectLoop env rest (i + 1) db2).1 := by
          simp [collectLoop, processCompany, hf', hq, hdb2, hdb1]
        have hcomm0 : countSym db.committed c.stock_symbol = 0 := by
          rw [countSym_eq_zero_iff]
          intro r hr he
          have := List.find?_eq_none.mp hq r hr
          simp [he] at this
        have hrows1 : db1.rows = db.committed ++ (db.pending ++ [newRecord env c]) := rfl
        have h1' : AtMostOnePerSymbol db2.rows := by
          intro s
          have he2 : countSym db2.rows s = countSym db1.rows s :=
            countSym_eq_of_map_eq (by rw [hdb2, commitIf_rows]) s
          rw [he2, hrows1, countSym_append, countSym_append, countSym_singleton]
          by_cases hss : (newRecord env c).stock_symbol == s
          · have hseq : c.stock_symbol = s := by simpa [newRecord] using hss
            rw [if_pos hss]
            have hp0 : countSym db.pending s = 0 := hseq ▸ h3 c (List.mem_cons_self c rest)
            have hc0 : countSym db.committed s = 0 := hseq ▸ hcomm0
            omega
          · rw [if_neg hss]
            have := h1 s
            rw [DB.rows, countSym_append] at this
            omega
        have h3' : ∀ c' ∈ rest, countSym db2.pending c'.stock_symbol = 0 := by
          intro c' hc'
          rw [hdb2]
          apply commitIf_pending_zero
          rw [hdb1]
          show countSym (db.pending ++ [newRecord env c]) c'.stock_symbol = 0
          rw [countSym_append, countSym_singleton]
          have hne : (newRecord env c).stock_symbol == c'.stock_symbol
              ↔ c.stock_symbol = c'.stock_symbol := by
            simp [newRecord]
          have hner : c.stock_symbol ≠ c'.stock_symbol := by
            intro he
            exact hcnr (he ▸ List.mem_map_of_mem (fun x => x.stock_symbol) hc')
          rw [if_neg (by simpa [hne] using hner)]
          have := h3 c' (List.mem_cons_of_mem c hc')
          omega
        obtain ⟨ha, hm⟩ := ih (i + 1) db2 h1' h2r h3'
        rw [hred]
        refine ⟨ha, ?_⟩
        intro s hs
        apply hm
        have hr2 : db2.rows = db1.rows := by
          rw [hdb2]
          exact commitIf_rows _ db1
        rw [hr2, hrows1]
        rw [DB.rows] at hs
        simp only [List.map_append, List.mem_append] at hs ⊢
        rcases hs with h | h
        · exact Or.inl h
        · exact Or.inr (Or.inl h)

/-- C1: `collect_and_update_stock_symbols` never creates a second row for an
existing stock symbol: for every company list obtained from the source
(whose symbols are pairwise distinct — each pykrx ticker is enumerated
once) and every starting table with at most one row per symbol, the final
table again has at most one row per symbol, and every symbol already in the
table keeps exactly its one row (updated in place, no insert); a row is
inserted only for symbols with no row. -/
theorem collect_no_duplicate_symbols (env : CollectEnv) (companies : List Company)
    (table : List KRStockCode)
    (h1 : AtMostOnePerSymbol table)
    (h2 : (companies.map (fun c => c.stock_symbol)).Nodup) :
    AtMostOnePerSymbol (collect_and_update_stock_symbols env companies table).2
    ∧ ∀ s, s ∈ table.map (fun r => r.stock_symbol) →
        countSym (collect_and_update_stock_symbols env companies table).2 s
          = countSym table s := by
  have hclean : (cleanup_duplicates env.cleanupFails table).1 = table := by
    rw [cleanup_id_of_atMostOne env.cleanupFails table h1]
  by_cases hc : companies = []
  · subst hc
    have hres : collect_and_update_stock_symbols env [] table = (false, table) := by
      simp [collect_and_update_stock_symbols, hclean]
    rw [hres]
    exact ⟨h1, fun s _ => rfl⟩
  · have hres : (collect_and_update_stock_symbols env companies table).2
        = (collectLoop env companies 0 ⟨table, []⟩).1.commit.rows := by
      simp [collect_and_update_stock_symbols, hclean, hc]
    have hrows0 : (⟨table, []⟩ : DB).rows = table := by
      simp [DB.rows]
    obtain ⟨ha, hm⟩ := collectLoop_inv env companies 0 ⟨table, []⟩
      (by intro s; rw [countSym_eq_of_map_eq (by rw [hrows0]) s]; exact h1 s)
      h2 (fun c _ => rfl)
    have hfin : ∀ s, countSym (collect_and_update_stock_symbols env companies table).2 s
        = countSym (collectLoop env companies 0 ⟨table, []⟩).1.rows s := by
      intro s
      rw [hres]
      exact countSym_eq_of_map_eq (by rw [DB.rows_commit]) s
    constructor
    · intro s
      rw [hfin s]
      exact ha s
    · intro s hs
      have hsl : s ∈ ((collectLoop env companies 0 ⟨table, []⟩).1.rows).map
          (fun r => r.stock_symbol) := hm s (by rw [hrows0]; exact hs)
      have hge : 0 < countSym (collectLoop env companies 0 ⟨table, []⟩).1.rows s :=
        (countSym_pos_iff _ s).mpr hsl
      have hle := ha s
      have htab1 : countSym table s = 1 :=
        le_antisymm (h1 s) ((countSym_pos_iff table s).mpr hs)
      rw [hfin s, htab1]
      omega

/-- Witness for C1: one known symbol (updated in place) and one new symbol
(inserted) against a singleton table. -/
theorem collect_no_duplicate_symbols_witness :
    AtMostOnePerSymbol (collect_and_update_stock_symbols
        { pykrx := fun _ => ⟨[95], false, false⟩, today := 100,
          fail := fun _ => false, cleanupFails := false }
        [⟨"000660", "KOSPI", "SK Hynix"⟩, ⟨"005930", "KOSPI", "Samsung"⟩]
        [⟨"005930", "KOSPI", "Samsung", none, none, true, 40, 60⟩]).2
    ∧ ∀ s, s ∈ ([⟨"005930", "KOSPI", "Samsung", none, none, true, 40, 60⟩]
          : List KRStockCode).map (fun r => r.stock_symbol) →
        countSym (collect_and_update_stock_symbols
          { pykrx := fun _ => ⟨[95], false, false⟩, today := 100,
            fail := fun _ => false, cleanupFails := false }
          [⟨"000660", "KOSPI", "SK Hynix"⟩, ⟨"005930", "KOSPI", "Samsung"⟩]
          [⟨"005930", "KOSPI", "Samsung", none, none, true, 40, 60⟩]).2 s
          = countSym [⟨"005930", "KOSPI", "Samsung", none, none, true, 40, 60⟩] s :=
  collect_no_duplicate_symbols _ _ _
    (by
      intro s
      have hsub2 : (symbolGroup s [⟨"005930", "KOSPI", "Samsung", none, none, true, 40, 60⟩]).Sublist
          [⟨"005930", "KOSPI", "Samsung", none, none, true, 40, 60⟩] := by
        rw [symbolGroup]
        exact List.filter_sublist _
      have := hsub2.length_le
      rw [countSym]
      simpa using this)
    (by decide)

theorem collect_all_stocks_data_concat (env : KsEnv) :
    ∀ companies : List KCompany,
      (collect_all_stocks_data env companies).1
          = concatMap (companyEvents env) companies
      ∧ (collect_all_stocks_data env companies).2.1
          = concatMap (companyRows env) companies
      ∧ (collect_all_stocks_data env companies).2.2 = companies := by
  intro companies
  induction companies with
  | nil => exact ⟨rfl, rfl, rfl⟩
  | cons c rest ih =>
    obtain ⟨h1, h2, h3⟩ := ih
    by_cases hf : env.fail c = true
    · simp [collect_all_stocks_data, concatMap, companyEvents, companyRows,
        hf, h1, h2, h3]
    · have hf' : env.fail c = false := by
        cases h : env.fail c with
        | true => exact absurd h hf
        | false => rfl
      by_cases hv : pyStrip c.stock_code = "" ∨ (pyStrip c.stock_code).length ≠ 6
      · simp [collect_all_stocks_data, concatMap, companyEvents, companyRows,
          hf', hv, h1, h2, h3]
      · simp [collect_all_stocks_data, concatMap, companyEvents, companyRows,
          hf', hv, h1, h2, h3]

theorem concatMap_append {α β : Type} (f : α → List β) :
    ∀ A B : List α, concatMap f (A ++ B) = concatMap f A ++ concatMap f B := by
  intro A B
  induction A with
  | nil => rfl
  | cons a t ih => simp [concatMap, ih]

/-- C5: in both per-ticker loops an exception in one iteration is caught
and the loop continues — whatever the failure environment says and
whatever state the loop is in, the list of tickers whose iteration body is
entered is the whole input list, in order. -/
theorem per_ticker_failures_do_not_abort :
    (∀ (env : CollectEnv) (companies : List Company) (i : Nat) (db : DB),
        (collectLoop env companies i db).2.2 = companies)
    ∧ (∀ (env : KsEnv) (companies : List KCompany),
        (collect_all_stocks_data env companies).2.2 = companies) := by
  constructor
  · intro env companies
    induction companies with
    | nil => intro i db; rfl
    | cons c rest ih =>
      intro i db
      cases hp : processCompany env c db with
      | error e => simp [collectLoop, hp, ih]
      | ok db1 => simp [collectLoop, hp, ih]
  · intro env companies
    exact (collect_all_stocks_data_concat env companies).2.2

/-- C7: `collect_all_stocks_data` processes the companies in list order
(its trace is the in-order concatenation of the per-company traces), and
every processed ticker — whether or not its fetch returned data —
contributes a fetch followed by exactly one `request_delay` (3 seconds)
pause as its last event, before any event of the next ticker. -/
theorem fetch_loop_has_fixed_delay (env : KsEnv) (companies : List KCompany) :
    (collect_all_stocks_data env companies).1
        = concatMap (companyEvents env) companies
    ∧ ∀ c : KCompany, env.fail c = false → pyStrip c.stock_code ≠ "" →
        (pyStrip c.stock_code).length = 6 →
        companyEvents env c = [KsEvent.fetch c, KsEvent.sleep request_delay]
        ∨ companyEvents env c
            = [KsEvent.fetch c,
                KsEvent.save c (env.fetch (pyStrip c.stock_code) c.market
                  (pyStrip c.corp_name)),
                KsEvent.sleep request_delay] := by
  refine ⟨(collect_all_stocks_data_concat env companies).1, ?_⟩
  intro c hf hne hlen
  have hv : ¬ (pyStrip c.stock_code = "" ∨ (pyStrip c.stock_code).length ≠ 6) := by
    rintro (h | h)
    exacts [hne h, h hlen]
  by_cases hdf : (env.fetch (pyStrip c.stock_code) c.market
      (pyStrip c.corp_name)).isEmpty = true
  · left
    simp [companyEvents, hf, hv, hdf]
  · right
    simp [companyEvents, hf, hv, hdf]

/-- Witness for C7: a valid 6-character ticker whose fetch returns no
rows — its trace is exactly a fetch followed by the 3-second pause. -/
theorem fetch_loop_has_fixed_delay_witness :
    companyEvents { fail := fun _ => false, fetch := fun _ _ _ => [] }
        ⟨"Samsung", "005930", "KOSPI"⟩
      = [KsEvent.fetch ⟨"Samsung", "005930", "KOSPI"⟩, KsEvent.sleep request_delay]
    ∨ companyEvents { fail := fun _ => false, fetch := fun _ _ _ => [] }
        ⟨"Samsung", "005930", "KOSPI"⟩
      = [KsEvent.fetch ⟨"Samsung", "005930", "KOSPI"⟩,
          KsEvent.save ⟨"Samsung", "005930", "KOSPI"⟩ [],
          KsEvent.sleep request_delay] :=
  (fetch_loop_has_fixed_delay { fail := fun _ => false, fetch := fun _ _ _ => [] } []).2
    ⟨"Samsung", "005930", "KOSPI"⟩ rfl (by decide) (by decide)

/-- C9: a company whose stripped stock code is empty or not exactly 6
characters is silently skipped — it contributes no fetch or save event and
no rows to the returned DataFrame, so removing it from the company list
changes neither the trace nor the collected rows. -/
theorem invalid_stock_code_skipped (env : KsEnv) (c : KCompany)
    (pre post : List KCompany)
    (h : pyStrip c.stock_code = "" ∨ (pyStrip c.stock_code).length ≠ 6) :
    companyEvents env c = [] ∧ companyRows env c = []
    ∧ (collect_all_stocks_data env (pre ++ c :: post)).1
        = (collect_all_stocks_data env (pre ++ post)).1
    ∧ (collect_all_stocks_data env (pre ++ c :: post)).2.1
        = (collect_all_stocks_data env (pre ++ post)).2.1 := by
  have hev : companyEvents env c = [] := by
    by_cases hf : env.fail c = true
    · simp [companyEvents, hf]
    · have hf' : env.fail c = false := by
        cases hx : env.fail c with
        | true => exact absurd hx hf
        | false => rfl
      simp [companyEvents, hf', h]
  have hrows : companyRows env c = [] := by
    by_cases hf : env.fail c = true
    · simp [companyRows, hf]
    · have hf' : env.fail c = false := by
        cases hx : env.fail c with
        | true => exact absurd hx hf
        | false => rfl
      simp [companyRows, hf', h]
  refine ⟨hev, hrows, ?_, ?_⟩
  · rw [(collect_all_stocks_data_concat env _).1, (collect_all_stocks_data_concat env _).1,
      concatMap_append, concatMap_append]
    simp [concatMap, hev]
  · rw [(collect_all_stocks_data_concat env _).2.1,
      (collect_all_stocks_data_concat env _).2.1,
      concatMap_append, concatMap_append]
    simp [concatMap, hrows]

/-- Witness for C9: a 5-character stock code is skipped entirely. -/
theorem invalid_stock_code_skipped_witness :
    companyEvents { fail := fun _ => false, fetch := fun _ _ _ => [] }
        ⟨"Bad", "12345", "KOSPI"⟩ = []
    ∧ companyRows { fail := fun _ => false, fetch := fun _ _ _ => [] }
        ⟨"Bad", "12345", "KOSPI"⟩ = []
    ∧ (collect_all_stocks_data { fail := fun _ => false, fetch := fun _ _ _ => [] }
        ([] ++ ⟨"Bad", "12345", "KOSPI"⟩ :: [])).1
        = (collect_all_stocks_data { fail := fun _ => false, fetch := fun _ _ _ => [] }
            ([] ++ [])).1
    ∧ (collect_all_stocks_data { fail := fun _ => false, fetch := fun _ _ _ => [] }
        ([] ++ ⟨"Bad", "12345", "KOSPI"⟩ :: [])).2.1
        = (collect_all_stocks_data { fail := fun _ => false, fetch := fun _ _ _ => [] }
            ([] ++ [])).2.1 :=
  invalid_stock_code_skipped _ _ [] [] (by decide)

theorem recKey_insertRow (row : StockRow) : recKey (insertRow row) = rowKey row := rfl

theorem updateExisting_idem (row : StockRow) (r : KoreanStock) :
    updateExisting row (updateExisting row r) = updateExisting row r := rfl

theorem updateExisting_insertRow (row : StockRow) :
    updateExisting row (insertRow row) = insertRow row := rfl

theorem keyMatch_iff (k : String × KDate) (r : KoreanStock) :
    keyMatch k r = true ↔ recKey r = k := by
  cases k with
  | mk a b => simp [keyMatch, recKey, Prod.ext_iff]

theorem any_keyMatch_iff (L : List KoreanStock) (k : String × KDate) :
    L.any (keyMatch k) = true ↔ k ∈ L.map recKey := by
  rw [List.any_eq_true]
  constructor
  · rintro ⟨r, hr, hk⟩
    have he : recKey r = k := (keyMatch_iff k r).mp hk
    exact he ▸ List.mem_map_of_mem recKey hr
  · intro hk
    obtain ⟨r, hr, he⟩ := List.mem_map.mp hk
    exact ⟨r, hr, (keyMatch_iff k r).mpr he⟩

theorem any_keyMatch_eq_of_map_eq {A B : List KoreanStock}
    (h : A.map recKey = B.map recKey) (k : String × KDate) :
    A.any (keyMatch k) = B.any (keyMatch k) := by
  cases hA : A.any (keyMatch k) with
  | true =>
    have hm := (any_keyMatch_iff A k).mp hA
    rw [h] at hm
    exact ((any_keyMatch_iff B k).mpr hm).symm
  | false =>
    cases hB : B.any (keyMatch k) with
    | true =>
      have hm := (any_keyMatch_iff B k).mp hB
      rw [← h] at hm
      rw [(any_keyMatch_iff A k).mpr hm] at hA
      exact absurd hA (by simp)
    | false => rfl

theorem find?_append {α : Type} (p : α → Bool) :
    ∀ A B : List α, (A ++ B).find? p
      = match A.find? p with
        | some r => some r
        | none => B.find? p := by
  intro A B
  induction A with
  | nil => simp
  | cons a t ih =>
    by_cases hp : p a = true
    · simp [List.find?, hp]
    · have hp' : p a = false := by
        cases hx : p a with
        | true => exact absurd hx hp
        | false => rfl
      simp [List.find?, hp', ih]

theorem find?_updateFirstBy_of_ne {α : Type} (p q : α → Bool) (f : α → α)
    (hpq : ∀ x, p x = true → q x = false) (hq : ∀ x, q (f x) = q x) :
    ∀ l : List α, (updateFirstBy p f l).find? q = l.find? q := by
  intro l
  induction l with
  | nil => rfl
  | cons a t ih =>
    by_cases hp : p a = true
    · have hqa : q a = false := hpq a hp
      have hqfa : q (f a) = false := by rw [hq]; exact hqa
      simp [updateFirstBy, hp, List.find?, hqa, hqfa]
    · have hp' : p a = false := by
        cases hx : p a with
        | true => exact absurd hx hp
        | false => rfl
      by_cases hqa : q a = true
      · simp [updateFirstBy, hp', List.find?, hqa]
      · have hqa' : q a = false := by
          cases hx : q a with
          | true => exact absurd hx hqa
          | false => rfl
        simp [updateFirstBy, hp', List.find?, hqa', ih]

theorem find?_updateFirstBy_self {α : Type} (p : α → Bool) (f : α → α)
    (hp : ∀ x, p (f x) = p x) :
    ∀ l : List α, (updateFirstBy p f l).find? p = (l.find? p).map f := by
  intro l
  induction l with
  | nil => rfl
  | cons a t ih =>
    by_cases hpa : p a = true
    · have hpf : p (f a) = true := by rw [hp]; exact hpa
      simp [updateFirstBy, hpa, List.find?, hpf]
    · have hpa' : p a = false := by
        cases hx : p a with
        | true => exact absurd hx hpa
        | false => rfl
      simp [updateFirstBy, hpa', List.find?, ih]

theorem updateFirstBy_id_of_fix {α : Type} (p : α → Bool) (f : α → α) :
    ∀ (l : List α) (r : α), l.find? p = some r → f r = r → updateFirstBy p f l = l := by
  intro l
  induction l with
  | nil => intro r h _; exact absurd h (by simp)
  | cons a t ih =>
    intro r hfind hfix
    by_cases hpa : p a = true
    · have : a = r := by
        rw [List.find?_cons_of_pos _ hpa] at hfind
        exact (Option.some.injEq _ _).mp hfind
      subst this
      simp [updateFirstBy, hpa, hfix]
    · have hpa' : p a = false := by
        cases hx : p a with
        | true => exact absurd hx hpa
        | false => rfl
      rw [List.find?_cons_of_neg _ (by simp [hpa'])] at hfind
      simp [updateFirstBy, hpa', ih r hfind hfix]

theorem saveLoop_find_frozen (k : String × KDate) :
    ∀ (df : List StockRow) (C P : List KoreanStock),
      (∀ row ∈ df, rowKey row ≠ k) →
      ((saveLoop df C P).1 ++ (saveLoop df C P).2).find? (keyMatch k)
        = (C ++ P).find? (keyMatch k) := by
  intro df
  induction df with
  | nil => intro C P _; rfl
  | cons row rest ih =>
    intro C P h
    have hkne : rowKey row ≠ k := h row (List.mem_cons_self row rest)
    have hrest : ∀ r2 ∈ rest, rowKey r2 ≠ k :=
      fun r2 h2 => h r2 (List.mem_cons_of_mem row h2)
    have hpq : ∀ x, keyMatch (row.symbol, row.date) x = true → keyMatch k x = false := by
      intro x hx
      have hxk : recKey x = rowKey row := (keyMatch_iff _ x).mp hx
      cases hc : keyMatch k x with
      | true =>
        have : recKey x = k := (keyMatch_iff k x).mp hc
        exact absurd (hxk ▸ this) hkne
      | false => rfl
    cases hf : C.find? (keyMatch (row.symbol, row.date)) with
    | some r =>
      have hred : saveLoop (row :: rest) C P
          = saveLoop rest
              (updateFirstBy (keyMatch (row.symbol, row.date)) (updateExisting row) C)
              P := by
        simp [saveLoop, hf]
      rw [hred, ih _ P hrest, find?_append, find?_append,
        find?_updateFirstBy_of_ne (keyMatch (row.symbol, row.date)) (keyMatch k)
          (updateExisting row) hpq (fun x => rfl) C]
    | none =>
      have hred : saveLoop (row :: rest) C P
          = saveLoop rest C (P ++ [insertRow row]) := by
        simp [saveLoop, hf]
      have hnew : keyMatch k (insertRow row) = false := by
        cases hc : keyMatch k (insertRow row) with
        | true =>
          have he : recKey (insertRow row) = k := (keyMatch_iff k _).mp hc
          exact absurd he hkne
        | false => rfl
      rw [hred, ih C _ hrest, find?_append, find?_append, find?_append]
      cases hC : C.find? (keyMatch k) with
      | some r => rfl
      | none =>
        cases hP : P.find? (keyMatch k) with
        | some r => rfl
        | none => simp [List.find?, hnew]

theorem saveLoop_spec :
    ∀ (df : List StockRow) (C P : List KoreanStock),
      (df.map rowKey).Nodup →
      (∀ row ∈ df, P.find? (keyMatch (rowKey row)) = none) →
      ((saveLoop df C P).1.map recKey = C.map recKey)
      ∧ ((saveLoop df C P).2.length
          = P.length + (df.filter (fun row => !(C.any (keyMatch (rowKey row))))).length)
      ∧ (∀ row ∈ df, ∃ r',
          ((saveLoop df C P).1 ++ (saveLoop df C P).2).find? (keyMatch (rowKey row))
            = some r'
          ∧ updateExisting row r' = r') := by
  intro df
  induction df with
  | nil =>
    intro C P _ _
    exact ⟨rfl, by simp [saveLoop], fun row h => absurd h (by simp)⟩
  | cons row rest ih =>
    intro C P hnd hP
    rw [List.map_cons, List.nodup_cons] at hnd
    obtain ⟨hknr, hndr⟩ := hnd
    have hrestkeys : ∀ r2 ∈ rest, rowKey r2 ≠ rowKey row := by
      intro r2 h2 he
      exact hknr (he ▸ List.mem_map_of_mem rowKey h2)
    cases hf : C.find? (keyMatch (row.symbol, row.date)) with
    | some r =>
      set C1 := updateFirstBy (keyMatch (row.symbol, row.date)) (updateExisting row) C
        with hC1
      have hred : saveLoop (row :: rest) C P = saveLoop rest C1 P := by
        simp [saveLoop, hf, hC1]
      have hmap1 : C1.map recKey = C.map recKey := by
        rw [hC1]
        exact map_updateFirstBy recKey (keyMatch (row.symbol, row.date))
          (updateExisting row) (fun x => rfl) C
      have hPrest : ∀ r2 ∈ rest, P.find? (keyMatch (rowKey r2)) = none :=
        fun r2 h2 => hP r2 (List.mem_cons_of_mem row h2)
      obtain ⟨m1, m2, m3⟩ := ih C1 P hndr hPrest
      rw [hred]
      refine ⟨by rw [m1, hmap1], ?_, ?_⟩
      · rw [m2]
        have hfilter : rest.filter (fun r2 => !(C1.any (keyMatch (rowKey r2))))
            = rest.filter (fun r2 => !(C.any (keyMatch (rowKey r2)))) := by
          apply List.filter_congr
          intro x _
          rw [any_keyMatch_eq_of_map_eq hmap1]
        have hany : C.any (keyMatch (rowKey row)) = true :=
          List.any_eq_true.mpr ⟨r, List.mem_of_find?_eq_some hf, List.find?_some hf⟩
        have hcons : (row :: rest).filter (fun r2 => !(C.any (keyMatch (rowKey r2))))
            = rest.filter (fun r2 => !(C.any (keyMatch (rowKey r2)))) := by
          rw [List.filter_cons]
          simp [hany]
        rw [hfilter, hcons]
      · intro r2 hr2
        rcases List.mem_cons.mp hr2 with rfl | hr2'
        · have hfind1 : C1.find? (keyMatch (rowKey r2)) = some (updateExisting r2 r) := by
            rw [hC1]
            have := find?_updateFirstBy_self (keyMatch (r2.symbol, r2.date))
              (updateExisting r2) (fun x => rfl) C
            rw [hf] at this
            exact this
          refine ⟨updateExisting r2 r, ?_, updateExisting_idem r2 r⟩
          rw [saveLoop_find_frozen (rowKey r2) rest C1 P hrestkeys, find?_append, hfind1]
        · exact m3 r2 hr2'
    | none =>
      have hred : saveLoop (row :: rest) C P = saveLoop rest C (P ++ [insertRow row]) := by
        simp [saveLoop, hf]
      have hPrest : ∀ r2 ∈ rest,
          (P ++ [insertRow row]).find? (keyMatch (rowKey r2)) = none := by
        intro r2 h2
        rw [find?_append, hP r2 (List.mem_cons_of_mem row h2)]
        have hnew : keyMatch (rowKey r2) (insertRow row) = false := by
          cases hc : keyMatch (rowKey r2) (insertRow row) with
          | true =>
            have he : recKey (insertRow row) = rowKey r2 := (keyMatch_iff _ _).mp hc
            exact absurd ((recKey_insertRow row) ▸ he).symm (hrestkeys r2 h2)
          | false => rfl
        simp [List.find?, hnew]
      obtain ⟨m1, m2, m3⟩ := ih C (P ++ [insertRow row]) hndr hPrest
      rw [hred]
      refine ⟨m1, ?_, ?_⟩
      · have hany : C.any (keyMatch (rowKey row)) = false := by
          cases hc : C.any (keyMatch (rowKey row)) with
          | true =>
            obtain ⟨x, hx, hkx⟩ := List.any_eq_true.mp hc
            exact absurd hkx (List.find?_eq_none.mp hf x hx)
          | false => rfl
        have hcons : (row :: rest).filter (fun r2 => !(C.any (keyMatch (rowKey r2))))
            = row :: rest.filter (fun r2 => !(C.any (keyMatch (rowKey r2)))) := by
          rw [List.filter_cons]
          simp [hany]
        have hPlen : (P ++ [insertRow row]).length = P.length + 1 := by
          rw [List.length_append]
          rfl
        rw [m2, hcons, hPlen, List.length_cons]
        omega
      · intro r2 hr2
        rcases List.mem_cons.mp hr2 with rfl | hr2'
        · refine ⟨insertRow r2, ?_, updateExisting_insertRow r2⟩
          rw [saveLoop_find_frozen (rowKey r2) rest C (P ++ [insertRow r2]) hrestkeys,
            find?_append]
          rw [show C.find? (keyMatch (rowKey r2)) = none from hf]
          rw [find?_append, hP r2 (List.mem_cons_self r2 rest)]
          have hnew : keyMatch (rowKey r2) (insertRow r2) = true :=
            (keyMatch_iff _ _).mpr (recKey_insertRow r2)
          simp [List.find?, hnew]
        · exact m3 r2 hr2'

theorem save_fixed_of_saturated :
    ∀ (df : List StockRow) (T : List KoreanStock),
      (∀ row ∈ df, ∃ r', T.find? (keyMatch (rowKey row)) = some r'
          ∧ updateExisting row r' = r') →
      saveLoop df T [] = (T, []) := by
  intro df
  induction df with
  | nil => intro T _; rfl
  | cons row rest ih =>
    intro T hsat
    obtain ⟨r', hfind, hfix⟩ := hsat row (List.mem_cons_self row rest)
    have hred : saveLoop (row :: rest) T []
        = saveLoop rest
            (updateFirstBy (keyMatch (row.symbol, row.date)) (updateExisting row) T)
            [] := by
      simp only [saveLoop]
      rw [show T.find? (keyMatch (row.symbol, row.date)) = some r' from hfind]
    have hupd : updateFirstBy (keyMatch (row.symbol, row.date)) (updateExisting row) T
        = T :=
      updateFirstBy_id_of_fix _ _ T r' hfind hfix
    rw [hred, hupd]
    exact ih T (fun r2 h2 => hsat r2 (List.mem_cons_of_mem row h2))

/-- C6 counterexample: (a) a record whose market differs from the incoming
row keeps its old market — the update branch does not overwrite `market`;
(b) with two rows sharing the key (symbol, date) but carrying different
values, saving the same DataFrame twice does not leave the table where one
save left it. -/
theorem save_overwrites_claim_counterexample :
    ((save_stock_data_to_db false
        [⟨"005930", "KOSDAQ", "S", 2, 2, 2, 2, 2, 0, 0, 10⟩]
        [⟨"005930", "KOSPI", "Old", 1, 1, 1, 1, 1, 0, 0, 10⟩]).1.map
        (fun r => r.market) = ["KOSPI"])
    ∧ (save_stock_data_to_db false
        [⟨"005930", "KOSPI", "S", 1, 1, 1, 1, 1, 0, 0, 10⟩,
          ⟨"005930", "KOSPI", "S", 2, 2, 2, 2, 2, 0, 0, 10⟩]
        (save_stock_data_to_db false
          [⟨"005930", "KOSPI", "S", 1, 1, 1, 1, 1, 0, 0, 10⟩,
            ⟨"005930", "KOSPI", "S", 2, 2, 2, 2, 2, 0, 0, 10⟩] []).1).1
      ≠ (save_stock_data_to_db false
          [⟨"005930", "KOSPI", "S", 1, 1, 1, 1, 1, 0, 0, 10⟩,
            ⟨"005930", "KOSPI", "S", 2, 2, 2, 2, 2, 0, 0, 10⟩] []).1 := by
  decide

/-- C6 (amended): `save_stock_data_to_db` upserts on (symbol, date) — for
every row of a DataFrame with pairwise distinct (symbol, date) keys (as
fetched per-symbol histories are), the record a subsequent lookup of that
key finds carries the row's eight data fields (`market` is left as it
was); the table grows by exactly the rows whose key had no record; and
saving the same DataFrame twice leaves the same table as saving it
once. -/
theorem save_stock_data_upsert (df : List StockRow) (T : List KoreanStock)
    (hkeys : (df.map rowKey).Nodup) :
    (∀ row ∈ df, ∃ r',
        (save_stock_data_to_db false df T).1.find? (keyMatch (rowKey row)) = some r'
        ∧ updateExisting row r' = r')
    ∧ (save_stock_data_to_db false df T).1.length
        = T.length + (df.filter (fun row => !(T.any (keyMatch (rowKey row))))).length
    ∧ (save_stock_data_to_db false df (save_stock_data_to_db false df T).1).1
        = (save_stock_data_to_db false df T).1 := by
  obtain ⟨m1, m2, m3⟩ := saveLoop_spec df T [] hkeys (fun row _ => rfl)
  have hT' : (save_stock_data_to_db false df T).1
      = (saveLoop df T []).1 ++ (saveLoop df T []).2 := rfl
  refine ⟨?_, ?_, ?_⟩
  · intro row hrow
    obtain ⟨r', h1, h2⟩ := m3 row hrow
    refine ⟨r', ?_, h2⟩
    rw [hT']
    exact h1
  · rw [hT', List.length_append, m2]
    have hlen1 : (saveLoop df T []).1.length = T.length := by
      have := congrArg List.length m1
      simpa using this
    rw [hlen1]
    simp
  · have hfix := save_fixed_of_saturated df
      ((saveLoop df T []).1 ++ (saveLoop df T []).2) m3
    show (saveLoop df ((saveLoop df T []).1 ++ (saveLoop df T []).2) []).1
        ++ (saveLoop df ((saveLoop df T []).1 ++ (saveLoop df T []).2) []).2
      = (saveLoop df T []).1 ++ (saveLoop df T []).2
    rw [hfix]
    simp

/-- Witness for C6 (idempotence conjunct at a concrete DataFrame and
table). -/
theorem save_stock_data_upsert_witness :
    (save_stock_data_to_db false
        [⟨"005930", "KOSPI", "S", 2, 2, 2, 2, 2, 0, 0, 10⟩,
          ⟨"000660", "KOSPI", "H", 3, 3, 3, 3, 3, 0, 0, 11⟩]
        (save_stock_data_to_db false
          [⟨"005930", "KOSPI", "S", 2, 2, 2, 2, 2, 0, 0, 10⟩,
            ⟨"000660", "KOSPI", "H", 3, 3, 3, 3, 3, 0, 0, 11⟩]
          [⟨"005930", "KOSPI", "Old", 1, 1, 1, 1, 1, 0, 0, 10⟩]).1).1
      = (save_stock_data_to_db false
          [⟨"005930", "KOSPI", "S", 2, 2, 2, 2, 2, 0, 0, 10⟩,
            ⟨"000660", "KOSPI", "H", 3, 3, 3, 3, 3, 0, 0, 11⟩]
          [⟨"005930", "KOSPI", "Old", 1, 1, 1, 1, 1, 0, 0, 10⟩]).1 :=
  (save_stock_data_upsert _ _ (by decide)).2.2

/-- C2 (code-bug evaluation): a previously delisted row (delisting day 50,
inactive) whose symbol trades again (a row on day 95, within 30 days of
today = 100) ends the run with `delisting_date = None` but
`is_active = False` — the update branch clears the date yet forces the flag
to `False`, and the re-activation branch is unreachable. -/
theorem relisted_symbol_left_inactive :
    ((collect_and_update_stock_symbols
        { pykrx := fun _ => ⟨[95], false, false⟩, today := 100,
          fail := fun _ => false, cleanupFails := false }
        [⟨"005930", "KOSPI", "Samsung"⟩]
        [⟨"005930", "KOSPI", "Samsung", none, some 50, false, 40, 60⟩]).2.map
      (fun r => (r.delisting_date, r.is_active))) = [(none, false)] := by
  decide

end Invest
